import Mathlib

/-!
Verification of the scull storage engine (src/scull/scull.c).

The store is a chain of nodes (`struct scull_qset`); each node optionally owns
an array of `qset` slots, each slot optionally owning a `quantum`-byte buffer.
We shallowly embed the chain as a `List` of nodes, a slot array as a
`List (Option (List Nat))`, and a buffer as a `List Nat` of bytes.  kmalloc is
modelled as always succeeding; a fresh buffer's (unspecified, kmalloc'd
without memset) contents are modelled as zeros — no property below reads an
unwritten byte.  `copy_to_user` / `copy_from_user` are modelled by a boolean
`userOk`: a transfer of `n` bytes fails iff `userOk = false` and `n ≠ 0`.
The semaphore serialises each call; a single call is embedded as a pure
function on the device state.
-/

namespace Scull

/-- One chain node (`struct scull_qset`): an optional slot array whose entries
are optional quantum buffers.  The `next` pointer is the list structure. -/
structure QNode where
  data : Option (List (Option (List Nat)))
deriving DecidableEq

/-- The zero-filled node produced by `kmalloc` + `memset` in `scull_follow`. -/
def emptyNode : QNode := ⟨none⟩

/-- The device (`struct scull_dev`): quantum size, node capacity (`qset`),
logical size and the node chain.  The semaphore and cdev carry no data. -/
structure ScullDev where
  quantum : Nat
  qset : Nat
  size : Nat
  data : List QNode
deriving DecidableEq

/-- A freshly initialised device (`scull_init_module`: `memset` zeroes size and
chain, then quantum/qset are set to the configured defaults). -/
def initDev (Q S : Nat) : ScullDev := ⟨Q, S, 0, []⟩

def EFAULT : Int := 14

/-- The chain after `scull_follow dev n`: every node missing up to index `n`
is allocated zero-filled (`data = NULL`); existing nodes are untouched. -/
def growChain (chain : List QNode) (n : Nat) : List QNode :=
  chain ++ List.replicate (n + 1 - chain.length) emptyNode

/-- `scull_follow`: grow the chain up to index `n` and return it together with
the node at index `n` (allocation is modelled as always succeeding). -/
def scull_follow (chain : List QNode) (n : Nat) : List QNode × QNode :=
  (growChain chain n, (growChain chain n).getD n emptyNode)

/-- `memcpy` of `src` into `dst` at offset `pos` (the effect of
`copy_from_user(dptr->data[s_pos]+q_pos, buf, count)` on the buffer). -/
def listWrite (dst : List Nat) (pos : Nat) (src : List Nat) : List Nat :=
  dst.take pos ++ src ++ dst.drop (pos + src.length)

/-- What `scull_read` hands back: the return value, the bytes delivered to the
user buffer, the device (the chain may have been grown by `scull_follow`),
and the file position. -/
structure ReadResult where
  retval : Int
  bytes : List Nat
  dev : ScullDev
  fpos : Nat
deriving DecidableEq

/-- What `scull_write` hands back: return value, device, file position. -/
structure WriteResult where
  retval : Int
  dev : ScullDev
  fpos : Nat
deriving DecidableEq

/-- `scull_read` (scull.c lines 106–149).  `count` is the requested length,
`f_pos` the file position, `userOk` whether the user destination is
accessible. -/
def scull_read (dev : ScullDev) (count : Nat) (f_pos : Nat) (userOk : Bool) :
    ReadResult :=
  let quantum := dev.quantum
  let itemsize := quantum * dev.qset
  if dev.size ≤ f_pos then ⟨0, [], dev, f_pos⟩ else
  let count := if dev.size < f_pos + count then dev.size - f_pos else count
  let item := f_pos / itemsize
  let rest := f_pos % itemsize
  let s_pos := rest / quantum
  let q_pos := rest % quantum
  let chain := (scull_follow dev.data item).1
  let dptr := (scull_follow dev.data item).2
  let dev := { dev with data := chain }
  match dptr.data with
  | none => ⟨0, [], dev, f_pos⟩
  | some slots =>
    match slots.getD s_pos none with
    | none => ⟨0, [], dev, f_pos⟩
    | some buffer =>
      let count := if quantum - q_pos < count then quantum - q_pos else count
      if userOk = false ∧ count ≠ 0 then ⟨-EFAULT, [], dev, f_pos⟩
      else ⟨(count : Int), (buffer.drop q_pos).take count, dev, f_pos + count⟩

/-- `if (!dptr->data) { allocate and zero the slot array }`: the slot array the
write goes on to use — the existing one, or a fresh all-empty array of `S`
slots. -/
def slotsOf (S : Nat) (nd : QNode) : List (Option (List Nat)) :=
  match nd.data with
  | none => List.replicate S none
  | some s => s

/-- `if (!dptr->data[s_pos]) { allocate the quantum }`: the buffer the write
goes on to use — the existing one, or a fresh `Q`-byte buffer (kmalloc'd
contents unspecified, modelled as zeros). -/
def bufferOf (Q : Nat) (o : Option (List Nat)) : List Nat :=
  match o with
  | none => List.replicate Q 0
  | some b => b

/-- `scull_write` (scull.c lines 151–202).  The source bytes are `buf` (the
requested `count` is `buf.length`); `userOk` is whether the user source is
accessible.  The slot array and quantum buffer allocated before
`copy_from_user` stay linked into the chain even when the copy faults. -/
def scull_write (dev : ScullDev) (buf : List Nat) (f_pos : Nat) (userOk : Bool) :
    WriteResult :=
  let quantum := dev.quantum
  let qset := dev.qset
  let itemsize := quantum * qset
  let item := f_pos / itemsize
  let rest := f_pos % itemsize
  let s_pos := rest / quantum
  let q_pos := rest % quantum
  let chain := (scull_follow dev.data item).1
  let dptr := (scull_follow dev.data item).2
  let slots := slotsOf qset dptr
  let buffer := bufferOf quantum (slots.getD s_pos none)
  let count := if quantum - q_pos < buf.length then quantum - q_pos else buf.length
  if userOk = false ∧ count ≠ 0 then
    ⟨-EFAULT, { dev with data := chain.set item ⟨some (slots.set s_pos (some buffer))⟩ },
     f_pos⟩
  else
    let written := listWrite buffer q_pos (buf.take count)
    ⟨(count : Int),
     { dev with
        data := chain.set item ⟨some (slots.set s_pos (some written))⟩,
        size := if dev.size < f_pos + count then f_pos + count else dev.size },
     f_pos + count⟩

/-- `scull_trim` (scull.c lines 38–59): free every buffer, slot array and node
(no observable trace in a functional model), detach the chain and reset
size, quantum and qset; `Q0`, `S0` are the configured defaults
`SCULL_QUANTUM` / `SCULL_QSET`. -/
def scull_trim (Q0 S0 : Nat) (_dev : ScullDev) : ScullDev := ⟨Q0, S0, 0, []⟩

/-- A caller looping `scull_write` (at most `fuel` calls) until the source is
exhausted, as §4.4 step 5 of the spec directs; returns the final device and
file position. -/
def writeLoop : Nat → ScullDev → List Nat → Nat → ScullDev × Nat
  | 0, dev, _, pos => (dev, pos)
  | fuel + 1, dev, buf, pos =>
    if buf = [] then (dev, pos)
    else
      let w := scull_write dev buf pos true
      writeLoop fuel w.dev (buf.drop w.retval.toNat) w.fpos

/-- A caller looping `scull_read` (at most `fuel` calls) until `want` bytes
have arrived or a call returns no byte; returns the bytes gathered, the final
device and the file position. -/
def readLoop : Nat → ScullDev → Nat → Nat → List Nat × ScullDev × Nat
  | 0, dev, _, pos => ([], dev, pos)
  | fuel + 1, dev, want, pos =>
    if want = 0 then ([], dev, pos)
    else
      let r := scull_read dev want pos true
      if r.retval ≤ 0 then ([], r.dev, r.fpos)
      else
        let rest := readLoop fuel r.dev (want - r.bytes.length) r.fpos
        (r.bytes ++ rest.1, rest.2.1, rest.2.2)

/-- The addressing computation shared by `scull_read` (lines 124–127) and
`scull_write` (lines 163–166): node index, slot index, intra-buffer offset. -/
def translate (offset Q S : Nat) : Nat × Nat × Nat :=
  let itemsize := Q * S
  let item := offset / itemsize
  let rest := offset % itemsize
  (item, rest / Q, rest % Q)

/-- The buffer in slot `s_pos` of the node at `item`, or `none` when the node,
its slot array or that slot's buffer is absent. -/
def slotAt (dev : ScullDev) (item s_pos : Nat) : Option (List Nat) :=
  ((dev.data.getD item emptyNode).data.getD []).getD s_pos none

/-- The byte stored at linear offset `i`, or `none` when the node, slot array
or buffer on the way is absent (a hole). -/
def byteAt (dev : ScullDev) (i : Nat) : Option Nat :=
  let itemsize := dev.quantum * dev.qset
  (slotAt dev (i / itemsize) (i % itemsize / dev.quantum)).bind
    fun buffer => buffer[i % itemsize % dev.quantum]?

/-- A slot is well-sized when its buffer, if any, holds exactly `Q` bytes. -/
def wfSlot (Q : Nat) (o : Option (List Nat)) : Bool :=
  match o with
  | none => true
  | some b => b.length == Q

/-- A node is well-formed when its slot array, if any, has exactly `S`
well-sized slots. -/
def wfNode (Q S : Nat) (nd : QNode) : Bool :=
  match nd.data with
  | none => true
  | some s => s.length == S && s.all (wfSlot Q)

/-- Structural well-formedness of a device: positive quantum and qset, every
slot array of length `qset`, every buffer of length `quantum`. -/
def WF (dev : ScullDev) : Bool :=
  dev.quantum != 0 && dev.qset != 0 && dev.data.all (wfNode dev.quantum dev.qset)

/-- The device stores exactly the byte string `w` contiguously from offset 0:
well-formed, size `w.length`, and offset `i < w.length` holds byte `w[i]`. -/
def Represents (dev : ScullDev) (w : List Nat) : Prop :=
  WF dev = true ∧ dev.size = w.length ∧ ∀ i, i < w.length → byteAt dev i = w[i]?

/-- One externally issued operation against a device (positions are explicit:
the kernel lets every call carry its own `*f_pos`, e.g. via `pread`/`pwrite`
or a seek on the handle). -/
inductive Op where
  | read (count pos : Nat) (userOk : Bool)
  | write (buf : List Nat) (pos : Nat) (userOk : Bool)
  | trim
deriving DecidableEq

/-- Run a sequence of operations, tracking since the last trim both the total
number of bytes accepted by successful writes and the greatest end position
(`pos` + bytes accepted) any successful write reached. -/
def runOps (Q0 S0 : Nat) : List Op → ScullDev × Nat × Nat → ScullDev × Nat × Nat
  | [], st => st
  | Op.read count pos ok :: ops, (dev, total, hi) =>
      runOps Q0 S0 ops ((scull_read dev count pos ok).dev, total, hi)
  | Op.write buf pos ok :: ops, (dev, total, hi) =>
      let w := scull_write dev buf pos ok
      if w.retval < 0 then runOps Q0 S0 ops (w.dev, total, hi)
      else runOps Q0 S0 ops (w.dev, total + w.retval.toNat, max hi (pos + w.retval.toNat))
  | Op.trim :: ops, (dev, _, _) =>
      runOps Q0 S0 ops (scull_trim Q0 S0 dev, 0, 0)

/-- Device states reachable from a freshly initialised store (configured
defaults `Q0`, `S0`) by reads, writes and trims at arbitrary positions. -/
inductive Reach (Q0 S0 : Nat) : ScullDev → Prop where
  | init : Reach Q0 S0 (initDev Q0 S0)
  | read (dev : ScullDev) (count pos : Nat) (ok : Bool) :
      Reach Q0 S0 dev → Reach Q0 S0 (scull_read dev count pos ok).dev
  | write (dev : ScullDev) (buf : List Nat) (pos : Nat) (ok : Bool) :
      Reach Q0 S0 dev → Reach Q0 S0 (scull_write dev buf pos ok).dev
  | trim (dev : ScullDev) : Reach Q0 S0 dev → Reach Q0 S0 (scull_trim Q0 S0 dev)

end Scull

namespace Scull

/-! ### Helper lemmas about the chain and buffer operations -/

theorem growChain_getD (c : List QNode) (n i : Nat) :
    (growChain c n).getD i emptyNode = c.getD i emptyNode := by
  simp only [growChain, List.getD_eq_getElem?_getD, List.getElem?_append,
    List.getElem?_replicate]
  by_cases h : i < c.length
  · simp [h]
  · rw [if_neg h, List.getElem?_eq_none (Nat.le_of_not_lt h)]
    split <;> rfl

theorem growChain_length (c : List QNode) (n : Nat) :
    (growChain c n).length = max c.length (n + 1) := by
  simp only [growChain, List.length_append, List.length_replicate]
  omega

theorem lt_growChain_length (c : List QNode) (n : Nat) : n < (growChain c n).length := by
  rw [growChain_length]; omega

theorem growChain_eq_self (c : List QNode) (n : Nat) (h : n < c.length) :
    growChain c n = c := by
  have : n + 1 - c.length = 0 := by omega
  simp [growChain, this]

theorem growChain_all (c : List QNode) (n : Nat) (p : QNode → Bool)
    (hc : c.all p = true) (he : p emptyNode = true) : (growChain c n).all p = true := by
  rw [growChain, List.all_append, hc, Bool.true_and, List.all_eq_true]
  intro x hx
  rw [List.eq_of_mem_replicate hx]; exact he

theorem all_getD {α : Type} (l : List α) (p : α → Bool) (d : α) (i : Nat)
    (hl : l.all p = true) (hd : p d = true) : p (l.getD i d) = true := by
  rw [List.getD_eq_getElem?_getD]
  cases h : l[i]? with
  | none => simpa using hd
  | some a =>
    have ha : a ∈ l := by
      obtain ⟨hlt, rfl⟩ := List.getElem?_eq_some_iff.mp h
      exact List.getElem_mem hlt
    simpa using List.all_eq_true.mp hl a ha

theorem all_set {α : Type} (l : List α) (p : α → Bool) (i : Nat) (a : α)
    (hl : l.all p = true) (ha : p a = true) : (l.set i a).all p = true := by
  rw [List.all_eq_true]
  intro x hx
  rcases List.mem_or_eq_of_mem_set hx with h | rfl
  · exact List.all_eq_true.mp hl x h
  · exact ha

theorem listWrite_length (dst src : List Nat) (pos : Nat)
    (h : pos + src.length ≤ dst.length) :
    (listWrite dst pos src).length = dst.length := by
  simp only [listWrite, List.length_append, List.length_take, List.length_drop]
  omega

theorem listWrite_getElem?_left (dst src : List Nat) (pos i : Nat)
    (hi : i < pos) (hp : pos ≤ dst.length) :
    (listWrite dst pos src)[i]? = dst[i]? := by
  have h1 : i < (dst.take pos).length := by
    simp only [List.length_take]; omega
  rw [listWrite, List.append_assoc, List.getElem?_append_left h1, List.getElem?_take,
    if_pos hi]

theorem listWrite_getElem?_mid (dst src : List Nat) (pos k : Nat)
    (hk : k < src.length) (hp : pos ≤ dst.length) :
    (listWrite dst pos src)[pos + k]? = src[k]? := by
  have h1 : (dst.take pos).length = pos := by
    simp only [List.length_take]; omega
  rw [listWrite, List.append_assoc, List.getElem?_append_right (by omega), h1,
    Nat.add_sub_cancel_left, List.getElem?_append_left hk]

theorem listWrite_id (dst : List Nat) (pos : Nat) :
    listWrite dst pos [] = dst := by
  simp [listWrite]

/-- Decomposing an offset written as `node · (Q·S) + slot · Q + intra` recovers
exactly that triple, when `slot < S` and `intra < Q`. -/
theorem triple_decomp (Q S n s q : Nat) (hs : s < S) (hq : q < Q) :
    (n * (Q * S) + (s * Q + q)) / (Q * S) = n ∧
    (n * (Q * S) + (s * Q + q)) % (Q * S) = s * Q + q ∧
    (s * Q + q) / Q = s ∧ (s * Q + q) % Q = q := by
  have hq0 : 0 < Q := by omega
  have hr : s * Q + q < Q * S := by
    calc s * Q + q < s * Q + Q := by omega
    _ = (s + 1) * Q := by ring
    _ ≤ S * Q := Nat.mul_le_mul_right Q hs
    _ = Q * S := Nat.mul_comm S Q
  have hits : 0 < Q * S := by omega
  refine ⟨?_, ?_, ?_, ?_⟩
  · rw [Nat.mul_comm n (Q * S), Nat.mul_add_div hits, Nat.div_eq_of_lt hr, Nat.add_zero]
  · rw [Nat.mul_comm n (Q * S), Nat.mul_add_mod, Nat.mod_eq_of_lt hr]
  · rw [Nat.mul_comm s Q, Nat.mul_add_div hq0, Nat.div_eq_of_lt hq, Nat.add_zero]
  · rw [Nat.mul_comm s Q, Nat.mul_add_mod, Nat.mod_eq_of_lt hq]

end Scull

namespace Scull

/-! ### Well-formedness and `byteAt` lemmas -/

theorem getD_set_self {α : Type} (l : List α) (i : Nat) (a d : α) (h : i < l.length) :
    (l.set i a).getD i d = a := by
  rw [List.getD_eq_getElem?_getD, List.getElem?_set_self h]; rfl

theorem getD_set_ne {α : Type} (l : List α) (i j : Nat) (a d : α) (h : i ≠ j) :
    (l.set i a).getD j d = l.getD j d := by
  rw [List.getD_eq_getElem?_getD, List.getElem?_set_ne h, ← List.getD_eq_getElem?_getD]

theorem WF_parts (dev : ScullDev) (h : WF dev = true) :
    dev.quantum ≠ 0 ∧ dev.qset ≠ 0 ∧
      dev.data.all (wfNode dev.quantum dev.qset) = true := by
  simp only [WF, Bool.and_eq_true, bne_iff_ne] at h
  exact ⟨h.1.1, h.1.2, h.2⟩

theorem wfNode_some (Q S : Nat) (nd : QNode) (s : List (Option (List Nat)))
    (h : nd.data = some s) (hwf : wfNode Q S nd = true) :
    s.length = S ∧ s.all (wfSlot Q) = true := by
  simp only [wfNode, h, Bool.and_eq_true, beq_iff_eq] at hwf
  exact hwf

theorem wfNode_getD (dev : ScullDev) (item : Nat) (h : WF dev = true) :
    wfNode dev.quantum dev.qset (dev.data.getD item emptyNode) = true :=
  all_getD _ _ _ _ (WF_parts dev h).2.2 rfl

theorem slotsOf_length (Q S : Nat) (nd : QNode) (h : wfNode Q S nd = true) :
    (slotsOf S nd).length = S := by
  cases hd : nd.data with
  | none => simp [slotsOf, hd]
  | some s => simpa [slotsOf, hd] using (wfNode_some Q S nd s hd h).1

theorem slotsOf_all (Q S : Nat) (nd : QNode) (h : wfNode Q S nd = true) :
    (slotsOf S nd).all (wfSlot Q) = true := by
  cases hd : nd.data with
  | none =>
    simp only [slotsOf, hd, List.all_eq_true]
    intro x hx
    rw [List.eq_of_mem_replicate hx]; rfl
  | some s => simpa [slotsOf, hd] using (wfNode_some Q S nd s hd h).2

theorem slotsOf_getD (S : Nat) (nd : QNode) (j : Nat) :
    (slotsOf S nd).getD j none = (nd.data.getD []).getD j none := by
  cases hd : nd.data with
  | none =>
    simp only [slotsOf, hd, Option.getD_none, List.getD_eq_getElem?_getD,
      List.getElem?_replicate]
    split <;> rfl
  | some s => simp [slotsOf, hd]

theorem bufferOf_length (Q : Nat) (o : Option (List Nat)) (h : wfSlot Q o = true) :
    (bufferOf Q o).length = Q := by
  cases o with
  | none => simp [bufferOf]
  | some b => simpa [bufferOf, wfSlot, beq_iff_eq] using h

theorem bufferOf_some (Q : Nat) (b : List Nat) : bufferOf Q (some b) = b := rfl

theorem wfSlot_getD (Q : Nat) (slots : List (Option (List Nat))) (j : Nat)
    (h : slots.all (wfSlot Q) = true) : wfSlot Q (slots.getD j none) = true :=
  all_getD _ _ _ _ h rfl

theorem slotAt_growChain (dev : ScullDev) (n item s_pos : Nat) :
    slotAt { dev with data := growChain dev.data n } item s_pos = slotAt dev item s_pos := by
  simp only [slotAt, growChain_getD]

theorem byteAt_growChain (dev : ScullDev) (n i : Nat) :
    byteAt { dev with data := growChain dev.data n } i = byteAt dev i := by
  simp only [byteAt, slotAt_growChain]

theorem WF_growChain (dev : ScullDev) (n : Nat) (h : WF dev = true) :
    WF { dev with data := growChain dev.data n } = true := by
  simp only [WF, Bool.and_eq_true] at h ⊢
  exact ⟨h.1, growChain_all _ _ _ h.2 rfl⟩

theorem represents_growChain (dev : ScullDev) (w : List Nat) (n : Nat)
    (h : Represents dev w) : Represents { dev with data := growChain dev.data n } w := by
  obtain ⟨hwf, hsz, hcont⟩ := h
  refine ⟨WF_growChain dev n hwf, hsz, fun i hi => ?_⟩
  rw [byteAt_growChain]; exact hcont i hi

end Scull

namespace Scull

-- Sanity checks (concrete evaluation of the model).

example : (scull_write (initDev 4 2) [65, 66, 67, 68, 69] 0 true).retval = 4 := by decide

example : (scull_read (initDev 4 2) 3 0 true).retval = 0 := by decide

example :
    (writeLoop 10 (initDev 4 2) [65, 66, 67, 68, 69, 70, 71, 72, 73, 74] 0).2 = 10 := by
  decide

example :
    (readLoop 10 (writeLoop 10 (initDev 4 2) [65, 66, 67, 68, 69, 70, 71, 72, 73, 74] 0).1
      10 0).1 = [65, 66, 67, 68, 69, 70, 71, 72, 73, 74] := by decide

end Scull

namespace Scull

theorem node_data_getD (X : List (Option (List Nat))) :
    ((QNode.mk (some X)).data.getD []) = X := rfl

theorem index_div (Q S n s q i : Nat) (hs : s < S) (hq : q < Q)
    (hi : i = n * (Q * S) + (s * Q + q)) : i / (Q * S) = n := by
  rw [hi]; exact (triple_decomp Q S n s q hs hq).1

theorem index_slot (Q S n s q i : Nat) (hs : s < S) (hq : q < Q)
    (hi : i = n * (Q * S) + (s * Q + q)) : i % (Q * S) / Q = s := by
  rw [hi, (triple_decomp Q S n s q hs hq).2.1]
  exact (triple_decomp Q S n s q hs hq).2.2.1

theorem index_intra (Q S n s q i : Nat) (hs : s < S) (hq : q < Q)
    (hi : i = n * (Q * S) + (s * Q + q)) : i % (Q * S) % Q = q := by
  rw [hi, (triple_decomp Q S n s q hs hq).2.1]
  exact (triple_decomp Q S n s q hs hq).2.2.2

/-- Core content lemma for the successful write path: overwriting, from
intra-offset `q_pos` on, the buffer in slot `s_pos` of node `item` — the
triple the addressing computation yields for offset `w.length` — extends the
bytes represented from `w` to `w ++ src`. -/
theorem byteAt_after_update (Q S sz sz' : Nat) (c : List QNode) (w src : List Nat)
    (slots : List (Option (List Nat)))
    (hQ0 : 0 < Q) (hS0 : 0 < S)
    (hslots : ∀ j, slots.getD j none =
      ((c.getD (w.length / (Q * S)) emptyNode).data.getD []).getD j none)
    (hslots_len : slots.length = S)
    (hbuffer_len : (bufferOf Q (slots.getD (w.length % (Q * S) / Q) none)).length = Q)
    (hsrcQ : w.length % (Q * S) % Q + src.length ≤ Q)
    (hcont : ∀ i, i < w.length → byteAt ⟨Q, S, sz, c⟩ i = w[i]?)
    (i : Nat) (hi : i < w.length + src.length) :
    byteAt ⟨Q, S, sz',
        (growChain c (w.length / (Q * S))).set (w.length / (Q * S))
          ⟨some (slots.set (w.length % (Q * S) / Q)
            (some (listWrite (bufferOf Q (slots.getD (w.length % (Q * S) / Q) none))
              (w.length % (Q * S) % Q) src)))⟩⟩ i
      = (w ++ src)[i]? := by
  have hits0 : 0 < Q * S := Nat.mul_pos hQ0 hS0
  have hqpos_lt : w.length % (Q * S) % Q < Q := Nat.mod_lt _ hQ0
  have hspos_lt : w.length % (Q * S) / Q < S := by
    rw [Nat.div_lt_iff_lt_mul hQ0]
    exact lt_of_lt_of_le (Nat.mod_lt _ hits0) (Nat.le_of_eq (Nat.mul_comm Q S))
  simp only [byteAt, slotAt] at hcont ⊢
  by_cases hiL : i < w.length
  · have horig := hcont i hiL
    rw [List.getElem?_append_left hiL, ← horig]
    by_cases hit : i / (Q * S) = w.length / (Q * S)
    · rw [hit]
      rw [getD_set_self _ _ _ _ (lt_growChain_length c (w.length / (Q * S))),
        node_data_getD]
      by_cases hsj : i % (Q * S) / Q = w.length % (Q * S) / Q
      · rw [hsj]
        rw [getD_set_self slots _ _ _ (by rw [hslots_len]; exact hspos_lt)]
        rw [← hslots (w.length % (Q * S) / Q)]
        -- q_i < q_pos by arithmetic
        have hidm : Q * S * (i / (Q * S)) + i % (Q * S) = i := Nat.div_add_mod i (Q * S)
        rw [hit] at hidm
        have hidm2 : Q * (i % (Q * S) / Q) + i % (Q * S) % Q = i % (Q * S) :=
          Nat.div_add_mod _ Q
        rw [hsj] at hidm2
        have hLdm : Q * S * (w.length / (Q * S)) + w.length % (Q * S) = w.length :=
          Nat.div_add_mod w.length (Q * S)
        have hLdm2 : Q * (w.length % (Q * S) / Q) + w.length % (Q * S) % Q =
            w.length % (Q * S) := Nat.div_add_mod _ Q
        have hqi_lt : i % (Q * S) % Q < w.length % (Q * S) % Q := by omega
        cases ho : slots.getD (w.length % (Q * S) / Q) none with
        | none =>
          exfalso
          rw [hit, hsj] at horig
          rw [← hslots (w.length % (Q * S) / Q), ho] at horig
          rw [List.getElem?_eq_getElem hiL] at horig
          simp at horig
        | some b =>
          have hb : b.length = Q := by
            rw [ho, bufferOf_some] at hbuffer_len; exact hbuffer_len
          rw [bufferOf_some, Option.some_bind, Option.some_bind]
          exact listWrite_getElem?_left b src _ _ hqi_lt (by omega)
      · rw [getD_set_ne slots _ _ _ _ (fun h => hsj h.symm)]
        rw [hslots (i % (Q * S) / Q)]
    · rw [getD_set_ne _ _ _ _ _ (fun h => hit h.symm), growChain_getD]
  · -- the written region
    have hk : i = w.length + (i - w.length) := by omega
    obtain ⟨k, hik⟩ : ∃ k, i = w.length + k := ⟨i - w.length, hk⟩
    subst hik
    have hkc : k < src.length := by omega
    have hq' : w.length % (Q * S) % Q + k < Q := by omega
    have hLdm : (w.length / (Q * S)) * (Q * S) + w.length % (Q * S) = w.length := by
      rw [Nat.mul_comm]; exact Nat.div_add_mod w.length (Q * S)
    have hLdm2 : (w.length % (Q * S) / Q) * Q + w.length % (Q * S) % Q =
        w.length % (Q * S) := by
      rw [Nat.mul_comm]; exact Nat.div_add_mod _ Q
    have hieq : w.length + k = (w.length / (Q * S)) * (Q * S) +
        ((w.length % (Q * S) / Q) * Q + (w.length % (Q * S) % Q + k)) := by omega
    have h1 := index_div Q S (w.length / (Q * S)) (w.length % (Q * S) / Q)
      (w.length % (Q * S) % Q + k) (w.length + k) hspos_lt hq' hieq
    have h2 := index_slot Q S (w.length / (Q * S)) (w.length % (Q * S) / Q)
      (w.length % (Q * S) % Q + k) (w.length + k) hspos_lt hq' hieq
    have h3 := index_intra Q S (w.length / (Q * S)) (w.length % (Q * S) / Q)
      (w.length % (Q * S) % Q + k) (w.length + k) hspos_lt hq' hieq
    rw [h1, h2, h3]
    rw [getD_set_self _ _ _ _ (lt_growChain_length c (w.length / (Q * S))),
      node_data_getD,
      getD_set_self slots _ _ _ (by rw [hslots_len]; exact hspos_lt),
      Option.some_bind]
    rw [listWrite_getElem?_mid _ _ _ _ hkc (by rw [hbuffer_len]; omega)]
    rw [List.getElem?_append_right (by omega), Nat.add_sub_cancel_left]

end Scull

namespace Scull

/-- One successful `scull_write` call appending `buf` at the end of a device
representing `w`: at least one byte is accepted and the device afterwards
represents `w ++ buf.take count`. -/
theorem write_step (dev : ScullDev) (w buf : List Nat) (hrep : Represents dev w)
    (hbuf : buf ≠ []) :
    ∃ count : Nat, 0 < count ∧ count ≤ buf.length ∧
      (scull_write dev buf w.length true).retval = (count : Int) ∧
      (scull_write dev buf w.length true).fpos = w.length + count ∧
      Represents (scull_write dev buf w.length true).dev (w ++ buf.take count) := by
  obtain ⟨hwf, hsz, hcont⟩ := hrep
  obtain ⟨hQne, hSne, hall⟩ := WF_parts dev hwf
  have hQ0 : 0 < dev.quantum := Nat.pos_of_ne_zero hQne
  have hS0 : 0 < dev.qset := Nat.pos_of_ne_zero hSne
  have hits0 : 0 < dev.quantum * dev.qset := Nat.mul_pos hQ0 hS0
  have hqpos_lt : w.length % (dev.quantum * dev.qset) % dev.quantum < dev.quantum :=
    Nat.mod_lt _ hQ0
  have hspos_lt : w.length % (dev.quantum * dev.qset) / dev.quantum < dev.qset := by
    rw [Nat.div_lt_iff_lt_mul hQ0]
    exact lt_of_lt_of_le (Nat.mod_lt _ hits0) (Nat.le_of_eq (Nat.mul_comm _ _))
  have hnodewf : wfNode dev.quantum dev.qset
      ((growChain dev.data (w.length / (dev.quantum * dev.qset))).getD
        (w.length / (dev.quantum * dev.qset)) emptyNode) = true := by
    rw [growChain_getD]; exact wfNode_getD dev _ hwf
  set slots := slotsOf dev.qset
      ((growChain dev.data (w.length / (dev.quantum * dev.qset))).getD
        (w.length / (dev.quantum * dev.qset)) emptyNode) with hslotsdef
  set cnt := if dev.quantum - w.length % (dev.quantum * dev.qset) % dev.quantum < buf.length
      then dev.quantum - w.length % (dev.quantum * dev.qset) % dev.quantum
      else buf.length with hcntdef
  set buffer := bufferOf dev.quantum
      (slots.getD (w.length % (dev.quantum * dev.qset) / dev.quantum) none) with hbufferdef
  set written := listWrite buffer (w.length % (dev.quantum * dev.qset) % dev.quantum)
      (buf.take cnt) with hwrittendef
  have hslots_len : slots.length = dev.qset := slotsOf_length _ _ _ hnodewf
  have hslots_all : slots.all (wfSlot dev.quantum) = true := slotsOf_all _ _ _ hnodewf
  have hbuffer_len : buffer.length = dev.quantum :=
    bufferOf_length _ _ (wfSlot_getD _ _ _ hslots_all)
  have hslots_fact : ∀ j, slots.getD j none =
      ((dev.data.getD (w.length / (dev.quantum * dev.qset)) emptyNode).data.getD []).getD
        j none := by
    intro j
    rw [hslotsdef, slotsOf_getD, growChain_getD]
  have hbufpos : 0 < buf.length := List.length_pos.mpr hbuf
  have hcnt_pos : 0 < cnt := by rw [hcntdef]; split <;> omega
  have hcnt_buf : cnt ≤ buf.length := by rw [hcntdef]; split <;> omega
  have hcnt_Q : w.length % (dev.quantum * dev.qset) % dev.quantum + cnt ≤ dev.quantum := by
    rw [hcntdef]; split <;> omega
  have htake_len : (buf.take cnt).length = cnt := by rw [List.length_take]; omega
  have hwritten_len : written.length = dev.quantum := by
    rw [hwrittendef,
      listWrite_length buffer (buf.take cnt) _ (by rw [htake_len, hbuffer_len]; omega)]
    exact hbuffer_len
  have hr : scull_write dev buf w.length true =
      ⟨(cnt : Int),
       ⟨dev.quantum, dev.qset,
        if dev.size < w.length + cnt then w.length + cnt else dev.size,
        (growChain dev.data (w.length / (dev.quantum * dev.qset))).set
          (w.length / (dev.quantum * dev.qset))
          ⟨some (slots.set (w.length % (dev.quantum * dev.qset) / dev.quantum)
            (some written))⟩⟩,
       w.length + cnt⟩ := rfl
  refine ⟨cnt, hcnt_pos, hcnt_buf, ?_, ?_, ?_⟩
  · rw [hr]
  · rw [hr]
  · rw [hr]
    refine ⟨?_, ?_, ?_⟩
    · -- well-formedness of the updated device
      simp only [WF, Bool.and_eq_true]
      refine ⟨⟨by simpa using hQne, by simpa using hSne⟩, ?_⟩
      refine all_set _ _ _ _ (growChain_all _ _ _ hall rfl) ?_
      simp only [wfNode, Bool.and_eq_true]
      refine ⟨?_, ?_⟩
      · rw [List.length_set, hslots_len]; exact beq_self_eq_true _
      · refine all_set _ _ _ _ hslots_all ?_
        simp only [wfSlot, beq_iff_eq]
        exact hwritten_len
    · -- size
      show (if dev.size < w.length + cnt then w.length + cnt else dev.size) =
        (w ++ buf.take cnt).length
      rw [hsz, if_pos (by omega), List.length_append, htake_len]
    · -- contents
      intro i hi
      have hi' : i < w.length + (buf.take cnt).length := by
        rw [← List.length_append]; exact hi
      exact byteAt_after_update dev.quantum dev.qset dev.size _ dev.data w
        (buf.take cnt) slots hQ0 hS0 hslots_fact hslots_len hbuffer_len
        (by rw [htake_len]; exact hcnt_Q) (fun j hj => hcont j hj) i hi'

end Scull

namespace Scull

/-- One `scull_read` with `0 < want` at `pos < w.length` on a device
representing `w`: it returns at least one byte — a prefix of the remaining
bytes of `w` — advances the position by as much, and only (possibly) grows the
chain. -/
theorem read_step (dev : ScullDev) (w : List Nat) (want pos : Nat)
    (hrep : Represents dev w) (hpos : pos < w.length) (hwant : 0 < want) :
    ∃ cnt : Nat, 0 < cnt ∧ cnt ≤ want ∧ cnt ≤ w.length - pos ∧
      scull_read dev want pos true =
        ⟨(cnt : Int), (w.drop pos).take cnt,
         { dev with data := growChain dev.data (pos / (dev.quantum * dev.qset)) },
         pos + cnt⟩ := by
  obtain ⟨hwf, hsz, hcont⟩ := hrep
  obtain ⟨hQne, hSne, hall⟩ := WF_parts dev hwf
  have hQ0 : 0 < dev.quantum := Nat.pos_of_ne_zero hQne
  have hS0 : 0 < dev.qset := Nat.pos_of_ne_zero hSne
  have hits0 : 0 < dev.quantum * dev.qset := Nat.mul_pos hQ0 hS0
  have hqpos_lt : pos % (dev.quantum * dev.qset) % dev.quantum < dev.quantum :=
    Nat.mod_lt _ hQ0
  have hbp := hcont pos hpos
  simp only [byteAt, slotAt] at hbp
  rw [List.getElem?_eq_getElem hpos] at hbp
  cases hnode : (dev.data.getD (pos / (dev.quantum * dev.qset)) emptyNode).data with
  | none => rw [hnode] at hbp; simp at hbp
  | some slots₀ =>
    rw [hnode] at hbp
    simp only [Option.getD_some] at hbp
    cases hslot0 : slots₀.getD (pos % (dev.quantum * dev.qset) / dev.quantum) none with
    | none => rw [hslot0] at hbp; simp at hbp
    | some buffer =>
      rw [hslot0, Option.some_bind] at hbp
      have hnw := wfNode_getD dev (pos / (dev.quantum * dev.qset)) hwf
      obtain ⟨hslots_len, hslots_all⟩ := wfNode_some _ _ _ _ hnode hnw
      have hbuflen : buffer.length = dev.quantum := by
        have := wfSlot_getD dev.quantum slots₀
          (pos % (dev.quantum * dev.qset) / dev.quantum) hslots_all
        rw [hslot0] at this
        simpa [wfSlot, beq_iff_eq] using this
      set cnt1 := if w.length < pos + want then w.length - pos else want with hcnt1
      set cnt := if dev.quantum - pos % (dev.quantum * dev.qset) % dev.quantum < cnt1
        then dev.quantum - pos % (dev.quantum * dev.qset) % dev.quantum
        else cnt1 with hcnt
      have h11 : 0 < cnt1 := by rw [hcnt1]; split <;> omega
      have h12 : cnt1 ≤ want := by rw [hcnt1]; split <;> omega
      have h13 : cnt1 ≤ w.length - pos := by rw [hcnt1]; split <;> omega
      have h21 : 0 < cnt := by rw [hcnt]; split <;> omega
      have h22 : cnt ≤ cnt1 := by rw [hcnt]; split <;> omega
      have h23 : cnt ≤ dev.quantum - pos % (dev.quantum * dev.qset) % dev.quantum := by
        rw [hcnt]; split <;> omega
      have hre : scull_read dev want pos true =
          ⟨(cnt : Int),
           (buffer.drop (pos % (dev.quantum * dev.qset) % dev.quantum)).take cnt,
           { dev with data := growChain dev.data (pos / (dev.quantum * dev.qset)) },
           pos + cnt⟩ := by
        simp only [scull_read, scull_follow]
        rw [hsz, if_neg (by omega : ¬ (w.length ≤ pos))]
        rw [growChain_getD]
        simp only [hnode, hslot0]
        rfl
      have hdm1 : (pos / (dev.quantum * dev.qset)) * (dev.quantum * dev.qset) +
          pos % (dev.quantum * dev.qset) = pos := by
        rw [Nat.mul_comm]; exact Nat.div_add_mod pos (dev.quantum * dev.qset)
      have hdm2 : (pos % (dev.quantum * dev.qset) / dev.quantum) * dev.quantum +
          pos % (dev.quantum * dev.qset) % dev.quantum = pos % (dev.quantum * dev.qset) := by
        rw [Nat.mul_comm]; exact Nat.div_add_mod _ dev.quantum
      have hspos_lt : pos % (dev.quantum * dev.qset) / dev.quantum < dev.qset := by
        rw [Nat.div_lt_iff_lt_mul hQ0]
        exact lt_of_lt_of_le (Nat.mod_lt _ hits0) (Nat.le_of_eq (Nat.mul_comm _ _))
      have hbytes :
          (buffer.drop (pos % (dev.quantum * dev.qset) % dev.quantum)).take cnt =
            (w.drop pos).take cnt := by
        apply List.ext_getElem?
        intro k
        rw [List.getElem?_take, List.getElem?_take]
        by_cases hk : k < cnt
        · rw [if_pos hk, if_pos hk, List.getElem?_drop, List.getElem?_drop]
          have hposk : pos + k < w.length := by omega
          have hqk : pos % (dev.quantum * dev.qset) % dev.quantum + k < dev.quantum := by
            omega
          have hieq : pos + k = (pos / (dev.quantum * dev.qset)) *
              (dev.quantum * dev.qset) +
              ((pos % (dev.quantum * dev.qset) / dev.quantum) * dev.quantum +
                (pos % (dev.quantum * dev.qset) % dev.quantum + k)) := by omega
          have h1 := index_div dev.quantum dev.qset _ _ _ _ hspos_lt hqk hieq
          have h2 := index_slot dev.quantum dev.qset _ _ _ _ hspos_lt hqk hieq
          have h3 := index_intra dev.quantum dev.qset _ _ _ _ hspos_lt hqk hieq
          have hbk := hcont (pos + k) hposk
          simp only [byteAt, slotAt] at hbk
          rw [h1, h2, h3, hnode] at hbk
          simp only [Option.getD_some] at hbk
          rw [hslot0, Option.some_bind] at hbk
          exact hbk
        · rw [if_neg hk, if_neg hk]
      refine ⟨cnt, h21, le_trans h22 h12, le_trans h22 h13, ?_⟩
      rw [hre, hbytes]

end Scull

namespace Scull

/-- Looping `scull_write` with fuel at least `buf.length` appends all of `buf`
to a device representing `w` and ends at position `w.length + buf.length`. -/
theorem writeLoop_spec (fuel : Nat) :
    ∀ dev w buf, Represents dev w → buf.length ≤ fuel →
      Represents (writeLoop fuel dev buf w.length).1 (w ++ buf) ∧
      (writeLoop fuel dev buf w.length).2 = w.length + buf.length := by
  induction fuel with
  | zero =>
    intro dev w buf hrep hle
    have hb : buf = [] := List.length_eq_zero.mp (Nat.le_zero.mp hle)
    subst hb
    constructor
    · simpa [writeLoop] using hrep
    · simp [writeLoop]
  | succ n ih =>
    intro dev w buf hrep hle
    by_cases hb : buf = []
    · subst hb
      constructor
      · simpa [writeLoop] using hrep
      · simp [writeLoop]
    · obtain ⟨cnt, hpos, hlebuf, hret, hfpos, hrep'⟩ := write_step dev w buf hrep hb
      have htake : (buf.take cnt).length = cnt := by rw [List.length_take]; omega
      have hlen : (w ++ buf.take cnt).length = w.length + cnt := by
        rw [List.length_append, htake]
      have hfuel : (buf.drop cnt).length ≤ n := by rw [List.length_drop]; omega
      have ih' := ih (scull_write dev buf w.length true).dev (w ++ buf.take cnt)
        (buf.drop cnt) hrep' hfuel
      rw [hlen] at ih'
      rw [List.append_assoc, List.take_append_drop] at ih'
      simp only [writeLoop]
      rw [if_neg hb, hret, Int.toNat_ofNat, hfpos]
      refine ⟨ih'.1, ?_⟩
      rw [ih'.2, List.length_drop]
      omega

/-- Looping `scull_read` from `pos` with enough fuel gathers exactly
`min want (w.length - pos)` bytes — the corresponding slice of `w` — and
advances the position by as much. -/
theorem readLoop_spec (fuel : Nat) :
    ∀ dev w want pos, Represents dev w → pos ≤ w.length →
      min want (w.length - pos) ≤ fuel →
      (readLoop fuel dev want pos).1 = (w.drop pos).take (min want (w.length - pos)) ∧
      (readLoop fuel dev want pos).2.2 = pos + min want (w.length - pos) := by
  induction fuel with
  | zero =>
    intro dev w want pos hrep hpos hle
    have h0 : min want (w.length - pos) = 0 := Nat.le_zero.mp hle
    rw [h0]
    simp [readLoop]
  | succ n ih =>
    intro dev w want pos hrep hpos hle
    by_cases hw : want = 0
    · subst hw
      simp [readLoop]
    · by_cases hp : pos < w.length
      · obtain ⟨cnt, hc0, hcw, hcl, hre⟩ := read_step dev w want pos hrep hp
          (Nat.pos_of_ne_zero hw)
        have hblen : ((w.drop pos).take cnt).length = cnt := by
          rw [List.length_take, List.length_drop]; omega
        have htarget : min want (w.length - pos) =
            cnt + min (want - cnt) (w.length - (pos + cnt)) := by omega
        have ih' := ih
          { dev with data := growChain dev.data (pos / (dev.quantum * dev.qset)) }
          w (want - cnt) (pos + cnt) (represents_growChain dev w _ hrep)
          (by omega) (by omega)
        simp only [readLoop]
        rw [if_neg hw, hre]
        dsimp only
        rw [if_neg (by omega : ¬ ((cnt : Int) ≤ 0))]
        rw [hblen]
        constructor
        · rw [ih'.1, htarget, List.take_add, List.drop_drop]
        · rw [ih'.2]; omega
      · obtain ⟨hwf, hsz, hcont⟩ := hrep
        have hre0 : scull_read dev want pos true = ⟨0, [], dev, pos⟩ := by
          simp only [scull_read]
          rw [hsz, if_pos (by omega : w.length ≤ pos)]
        have h0 : min want (w.length - pos) = 0 := by omega
        simp only [readLoop]
        rw [if_neg hw, hre0]
        dsimp only
        rw [if_pos (le_refl (0 : Int)), h0]
        simp

end Scull

namespace Scull

theorem represents_initDev (Q S : Nat) (hQ : 0 < Q) (hS : 0 < S) :
    Represents (initDev Q S) [] := by
  refine ⟨?_, rfl, fun i hi => absurd hi (by simp)⟩
  simp only [WF, initDev, List.all_nil, Bool.and_true]
  rw [Bool.and_eq_true, bne_iff_ne, bne_iff_ne]
  exact ⟨by omega, by omega⟩

/-- C1: round-trip — starting from the empty store with positive quantum `Q`
and node capacity `S`, looping `scull_write` from position 0 accepts all
`buf.length` bytes (final position `buf.length`), and then looping
`scull_read` from position 0 returns exactly the original bytes (and ends at
position `buf.length`), including when the bytes span several quantum buffers
and several chain nodes. -/
theorem scull_roundTrip (Q S : Nat) (buf : List Nat) (hQ : 0 < Q) (hS : 0 < S) :
    (writeLoop buf.length (initDev Q S) buf 0).2 = buf.length ∧
    (readLoop buf.length (writeLoop buf.length (initDev Q S) buf 0).1 buf.length 0).1
      = buf ∧
    (readLoop buf.length (writeLoop buf.length (initDev Q S) buf 0).1 buf.length 0).2.2
      = buf.length := by
  have h0 := represents_initDev Q S hQ hS
  have hw := writeLoop_spec buf.length (initDev Q S) [] buf h0 (le_refl _)
  simp only [List.length_nil, List.nil_append, Nat.zero_add] at hw
  have hr := readLoop_spec buf.length (writeLoop buf.length (initDev Q S) buf 0).1 buf
    buf.length 0 hw.1 (by omega) (by omega)
  simp only [Nat.sub_zero, Nat.min_self, List.drop_zero, Nat.zero_add] at hr
  exact ⟨hw.2, by rw [hr.1]; exact List.take_length buf, hr.2⟩

end Scull

namespace Scull

/-- A read leaves the device alone or merely grows the chain (the
`scull_follow` call in `scull_read` allocates missing nodes). -/
theorem scull_read_dev_shape (dev : ScullDev) (count pos : Nat) (ok : Bool) :
    (scull_read dev count pos ok).dev = dev ∨
    (pos < dev.size ∧
      (scull_read dev count pos ok).dev =
        { dev with data := growChain dev.data (pos / (dev.quantum * dev.qset)) }) := by
  simp only [scull_read, scull_follow]
  split
  · exact Or.inl rfl
  all_goals repeat (first | exact Or.inr ⟨by omega, rfl⟩ | split)

theorem scull_read_size (dev : ScullDev) (count pos : Nat) (ok : Bool) :
    (scull_read dev count pos ok).dev.size = dev.size := by
  rcases scull_read_dev_shape dev count pos ok with h | ⟨_, h⟩ <;> rw [h]

theorem scull_read_fpos_toNat (dev : ScullDev) (count pos : Nat) (ok : Bool) :
    (scull_read dev count pos ok).fpos =
      pos + (scull_read dev count pos ok).retval.toNat := by
  simp only [scull_read, scull_follow]
  repeat (first | rfl | split)

theorem scull_write_neg_size (dev : ScullDev) (buf : List Nat) (pos : Nat) (ok : Bool)
    (h : (scull_write dev buf pos ok).retval < 0) :
    (scull_write dev buf pos ok).dev.size = dev.size := by
  revert h
  simp only [scull_write, scull_follow]
  split <;> split <;> intro h
  · rfl
  · exact absurd h (Int.not_lt.mpr (Int.natCast_nonneg _))
  · rfl
  · exact absurd h (Int.not_lt.mpr (Int.natCast_nonneg _))

theorem scull_write_size_le (dev : ScullDev) (buf : List Nat) (pos : Nat) (ok : Bool) :
    (scull_write dev buf pos ok).dev.size ≤
      max dev.size (pos + (scull_write dev buf pos ok).retval.toNat) := by
  simp only [scull_write, scull_follow]
  split <;> split
  · exact le_max_left _ _
  · dsimp only
    rw [Int.toNat_ofNat]
    split <;> omega
  · exact le_max_left _ _
  · dsimp only
    rw [Int.toNat_ofNat]
    split <;> omega

end Scull

namespace Scull

theorem scull_write_dev_fields (dev : ScullDev) (buf : List Nat) (pos : Nat) (ok : Bool) :
    (scull_write dev buf pos ok).dev.quantum = dev.quantum ∧
    (scull_write dev buf pos ok).dev.qset = dev.qset := by
  simp only [scull_write, scull_follow]
  split <;> split <;> exact ⟨rfl, rfl⟩

/-- A write keeps the size covered by the chain: `size ≤ chainLength · Q · S`
is preserved (the chain is grown before the size may grow). -/
theorem scull_write_size_bound (dev : ScullDev) (buf : List Nat) (pos : Nat) (ok : Bool)
    (hQ : 0 < dev.quantum) (hS : 0 < dev.qset)
    (hsz : dev.size ≤ dev.data.length * (dev.quantum * dev.qset)) :
    (scull_write dev buf pos ok).dev.size ≤
      (scull_write dev buf pos ok).dev.data.length * (dev.quantum * dev.qset) := by
  have hits0 : 0 < dev.quantum * dev.qset := Nat.mul_pos hQ hS
  have e1 : (dev.quantum * dev.qset) * (pos / (dev.quantum * dev.qset)) +
      pos % (dev.quantum * dev.qset) = pos := Nat.div_add_mod _ _
  have e2 : dev.quantum * (pos % (dev.quantum * dev.qset) / dev.quantum) +
      pos % (dev.quantum * dev.qset) % dev.quantum = pos % (dev.quantum * dev.qset) :=
    Nat.div_add_mod _ _
  have e4 : pos % (dev.quantum * dev.qset) % dev.quantum < dev.quantum := Nat.mod_lt _ hQ
  have e3 : pos % (dev.quantum * dev.qset) / dev.quantum < dev.qset := by
    rw [Nat.div_lt_iff_lt_mul hQ]
    exact lt_of_lt_of_le (Nat.mod_lt _ hits0) (Nat.le_of_eq (Nat.mul_comm _ _))
  have e5 : dev.quantum * (pos % (dev.quantum * dev.qset) / dev.quantum) + dev.quantum ≤
      dev.quantum * dev.qset := by
    calc dev.quantum * (pos % (dev.quantum * dev.qset) / dev.quantum) + dev.quantum
        = dev.quantum * (pos % (dev.quantum * dev.qset) / dev.quantum + 1) := by ring
      _ ≤ dev.quantum * dev.qset := Nat.mul_le_mul_left _ e3
  have e6 : ∀ nd : QNode, ((growChain dev.data (pos / (dev.quantum * dev.qset))).set
      (pos / (dev.quantum * dev.qset)) nd).length =
        max dev.data.length (pos / (dev.quantum * dev.qset) + 1) := by
    intro nd; rw [List.length_set, growChain_length]
  have e7 : (pos / (dev.quantum * dev.qset) + 1) * (dev.quantum * dev.qset) =
      (dev.quantum * dev.qset) * (pos / (dev.quantum * dev.qset)) +
        dev.quantum * dev.qset := by ring
  have e8 : (pos / (dev.quantum * dev.qset) + 1) * (dev.quantum * dev.qset) ≤
      (max dev.data.length (pos / (dev.quantum * dev.qset) + 1)) *
        (dev.quantum * dev.qset) :=
    Nat.mul_le_mul_right _ (le_max_right _ _)
  have e9 : dev.data.length * (dev.quantum * dev.qset) ≤
      (max dev.data.length (pos / (dev.quantum * dev.qset) + 1)) *
        (dev.quantum * dev.qset) :=
    Nat.mul_le_mul_right _ (le_max_left _ _)
  simp only [scull_write, scull_follow]
  split <;> split
  all_goals dsimp only
  all_goals rw [e6]
  · omega
  · split <;> omega
  · omega
  · split <;> omega

/-- Invariant of reachable device states: the configuration is the defaults and
the chain covers the size. -/
theorem reach_inv (Q0 S0 : Nat) (hQ : 0 < Q0) (hS : 0 < S0) (dev : ScullDev)
    (h : Reach Q0 S0 dev) :
    dev.quantum = Q0 ∧ dev.qset = S0 ∧
      dev.size ≤ dev.data.length * (Q0 * S0) := by
  induction h with
  | init => exact ⟨rfl, rfl, by simp [initDev]⟩
  | read dev count pos ok _ ih =>
    obtain ⟨h1, h2, h3⟩ := ih
    rcases scull_read_dev_shape dev count pos ok with he | ⟨_, he⟩ <;> rw [he]
    · exact ⟨h1, h2, h3⟩
    · refine ⟨h1, h2, ?_⟩
      dsimp only
      rw [growChain_length]
      have := Nat.mul_le_mul_right (Q0 * S0)
        (le_max_left dev.data.length (pos / (dev.quantum * dev.qset) + 1))
      omega
  | write dev buf pos ok _ ih =>
    obtain ⟨h1, h2, h3⟩ := ih
    obtain ⟨f1, f2⟩ := scull_write_dev_fields dev buf pos ok
    refine ⟨by rw [f1, h1], by rw [f2, h2], ?_⟩
    have hb := scull_write_size_bound dev buf pos ok (by omega) (by omega)
      (by rw [h1, h2]; exact h3)
    rw [h1, h2] at hb
    exact hb
  | trim dev _ _ => exact ⟨rfl, rfl, by simp [scull_trim]⟩

end Scull

namespace Scull

/-- C3 amended: for every store state reachable from the empty store by
reads, writes and trims (positive configured `Q0`, `S0`), a read — at any
position and length, whether the user copy succeeds or faults — leaves the
device, and in particular its node chain, exactly as it was: it allocates no
node, slot array or buffer.  (As stated over arbitrary store states the claim
fails: see the counterexample — `scull_read` locates its node through the
allocating `scull_follow`.) -/
theorem scull_read_preserves_dev (Q0 S0 : Nat) (dev : ScullDev) (count pos : Nat)
    (ok : Bool) (hQ : 0 < Q0) (hS : 0 < S0) (hreach : Reach Q0 S0 dev) :
    (scull_read dev count pos ok).dev = dev := by
  obtain ⟨hq, hs, hsz⟩ := reach_inv Q0 S0 hQ hS dev hreach
  rcases scull_read_dev_shape dev count pos ok with he | ⟨hlt, he⟩
  · exact he
  · have hits0 : 0 < dev.quantum * dev.qset := by
      rw [hq, hs]; exact Nat.mul_pos hQ hS
    have hitem : pos / (dev.quantum * dev.qset) < dev.data.length := by
      rw [Nat.div_lt_iff_lt_mul hits0, hq, hs]
      omega
    rw [he, growChain_eq_self _ _ hitem]

/-- Size never exceeds the greatest end position reached by a successful write
since the last trim, along any run. -/
theorem runOps_size_le (Q0 S0 : Nat) (ops : List Op) :
    ∀ st : ScullDev × Nat × Nat, st.1.size ≤ st.2.2 →
      (runOps Q0 S0 ops st).1.size ≤ (runOps Q0 S0 ops st).2.2 := by
  induction ops with
  | nil => intro st h; exact h
  | cons op ops ih =>
    intro st h
    obtain ⟨dev, total, hi⟩ := st
    dsimp only at h
    cases op with
    | read count pos ok =>
      simp only [runOps]
      apply ih
      rcases scull_read_dev_shape dev count pos ok with he | ⟨_, he⟩ <;> rw [he] <;>
        exact h
    | write buf pos ok =>
      simp only [runOps]
      split
      · next hneg =>
        apply ih
        have hsz := scull_write_neg_size dev buf pos ok hneg
        simp only [hsz]
        exact h
      · apply ih
        have hb := scull_write_size_le dev buf pos ok
        dsimp only
        omega
    | trim =>
      simp only [runOps]
      apply ih
      simp [scull_trim]

end Scull

namespace Scull

/-- With an inaccessible user destination (`userOk = false`) a read delivers
nothing, returns 0 or `-EFAULT`, and leaves position and size unchanged. -/
theorem read_fault_frame (dev : ScullDev) (count pos : Nat) :
    (scull_read dev count pos false).bytes = [] ∧
    ((scull_read dev count pos false).retval = 0 ∨
      (scull_read dev count pos false).retval = -EFAULT) ∧
    (scull_read dev count pos false).fpos = pos ∧
    (scull_read dev count pos false).dev.size = dev.size := by
  have hsz := scull_read_size dev count pos false
  refine ⟨?_, ?_, ?_, hsz⟩ <;> simp only [scull_read, scull_follow]
  · repeat' (first | rfl | split)
    all_goals
      rename_i hcond
      have hc0 := of_not_not (fun hne => hcond ⟨by trivial, hne⟩)
      rw [hc0]
      try rfl
  · repeat' (first | exact Or.inl rfl | exact Or.inr rfl | split)
    all_goals
      rename_i hcond
      have hc0 := of_not_not (fun hne => hcond ⟨by trivial, hne⟩)
      exact Or.inl (by rw [hc0]; rfl)
  · repeat' (first | rfl | split)
    all_goals
      rename_i hcond
      have hc0 := of_not_not (fun hne => hcond ⟨by trivial, hne⟩)
      rw [hc0]
      try rfl

/-- The file position a write reports is the old position advanced by the
(clamped, non-negative) return value. -/
theorem scull_write_fpos_toNat (dev : ScullDev) (buf : List Nat) (pos : Nat) (ok : Bool) :
    (scull_write dev buf pos ok).fpos =
      pos + (scull_write dev buf pos ok).retval.toNat := by
  simp only [scull_write, scull_follow]
  split <;> split <;> rfl

/-- With an inaccessible user source a write returns 0 or `-EFAULT`, and on
`-EFAULT` leaves position and size unchanged. -/
theorem write_fault_frame (dev : ScullDev) (buf : List Nat) (pos : Nat) :
    ((scull_write dev buf pos false).retval = 0 ∨
      (scull_write dev buf pos false).retval = -EFAULT) ∧
    ((scull_write dev buf pos false).retval = -EFAULT →
      (scull_write dev buf pos false).fpos = pos ∧
      (scull_write dev buf pos false).dev.size = dev.size) := by
  constructor
  · simp only [scull_write, scull_follow]
    split <;> split
    · exact Or.inr rfl
    · rename_i hcond
      exact Or.inl (by rw [of_not_not (fun hne => hcond ⟨by trivial, hne⟩)]; rfl)
    · exact Or.inr rfl
    · rename_i hcond
      exact Or.inl (by rw [of_not_not (fun hne => hcond ⟨by trivial, hne⟩)]; rfl)
  · intro hf
    constructor
    · rw [scull_write_fpos_toNat, hf]; rfl
    · exact scull_write_neg_size dev buf pos false (by rw [hf]; decide)

end Scull

namespace Scull

/-- C7: a read at a position below the size whose target node is absent, or
whose node has no slot array, or whose targeted slot has no buffer (the
`slotAt` chain yields `none`), returns 0 bytes and no error. -/
theorem hole_read_zero (dev : ScullDev) (count pos : Nat) (ok : Bool)
    (hpos : pos < dev.size)
    (hhole : slotAt dev (pos / (dev.quantum * dev.qset))
      (pos % (dev.quantum * dev.qset) / dev.quantum) = none) :
    (scull_read dev count pos ok).retval = 0 ∧
    (scull_read dev count pos ok).bytes = [] := by
  simp only [scull_read, scull_follow]
  rw [if_neg (by omega : ¬ (dev.size ≤ pos))]
  cases hnode : (dev.data.getD (pos / (dev.quantum * dev.qset)) emptyNode).data with
  | none =>
    rw [growChain_getD, hnode]
    exact ⟨rfl, rfl⟩
  | some s =>
    have hs : s.getD (pos % (dev.quantum * dev.qset) / dev.quantum) none = none := by
      unfold slotAt at hhole
      rw [hnode] at hhole
      simpa using hhole
    rw [growChain_getD]
    simp only [hnode, hs]
    exact ⟨by trivial, by trivial⟩

/-- C9: a zero-length write (no allocation failure arises in the model) on a
well-formed store returns 0 and copies no bytes — an existing buffer in the
addressed slot is left exactly as it was — yet it still allocates the node,
slot array and quantum buffer at the position translated from `pos`, and sets
the size to `max size pos`; in particular at `pos > size` it raises the size
to `pos`. -/
theorem zero_write_spec (dev : ScullDev) (pos : Nat) (hwf : WF dev = true) :
    (scull_write dev [] pos true).retval = 0 ∧
    (scull_write dev [] pos true).fpos = pos ∧
    (scull_write dev [] pos true).dev.size = max dev.size pos ∧
    slotAt (scull_write dev [] pos true).dev (pos / (dev.quantum * dev.qset))
      (pos % (dev.quantum * dev.qset) / dev.quantum) ≠ none ∧
    (∀ b, slotAt dev (pos / (dev.quantum * dev.qset))
        (pos % (dev.quantum * dev.qset) / dev.quantum) = some b →
      slotAt (scull_write dev [] pos true).dev (pos / (dev.quantum * dev.qset))
        (pos % (dev.quantum * dev.qset) / dev.quantum) = some b) := by
  obtain ⟨hQne, hSne, hall⟩ := WF_parts dev hwf
  have hQ0 : 0 < dev.quantum := Nat.pos_of_ne_zero hQne
  have hS0 : 0 < dev.qset := Nat.pos_of_ne_zero hSne
  have hits0 : 0 < dev.quantum * dev.qset := Nat.mul_pos hQ0 hS0
  have hspos_lt : pos % (dev.quantum * dev.qset) / dev.quantum < dev.qset := by
    rw [Nat.div_lt_iff_lt_mul hQ0]
    exact lt_of_lt_of_le (Nat.mod_lt _ hits0) (Nat.le_of_eq (Nat.mul_comm _ _))
  have hnodewf : wfNode dev.quantum dev.qset
      ((growChain dev.data (pos / (dev.quantum * dev.qset))).getD
        (pos / (dev.quantum * dev.qset)) emptyNode) = true := by
    rw [growChain_getD]; exact wfNode_getD dev _ hwf
  set slots := slotsOf dev.qset
      ((growChain dev.data (pos / (dev.quantum * dev.qset))).getD
        (pos / (dev.quantum * dev.qset)) emptyNode) with hslotsdef
  set buffer := bufferOf dev.quantum
      (slots.getD (pos % (dev.quantum * dev.qset) / dev.quantum) none) with hbufferdef
  have hslots_len : slots.length = dev.qset := slotsOf_length _ _ _ hnodewf
  have hslots_fact : ∀ j, slots.getD j none =
      slotAt dev (pos / (dev.quantum * dev.qset)) j := by
    intro j
    rw [hslotsdef, slotsOf_getD, growChain_getD]
    rfl
  have hr : scull_write dev [] pos true =
      ⟨((0 : Nat) : Int),
       ⟨dev.quantum, dev.qset,
        if dev.size < pos + 0 then pos + 0 else dev.size,
        (growChain dev.data (pos / (dev.quantum * dev.qset))).set
          (pos / (dev.quantum * dev.qset))
          ⟨some (slots.set (pos % (dev.quantum * dev.qset) / dev.quantum)
            (some (listWrite buffer (pos % (dev.quantum * dev.qset) % dev.quantum) [])))⟩⟩,
       pos + 0⟩ := rfl
  rw [hr]
  refine ⟨rfl, rfl, ?_, ?_, ?_⟩
  · show (if dev.size < pos + 0 then pos + 0 else dev.size) = max dev.size pos
    split <;> omega
  · show slotAt _ _ _ ≠ none
    unfold slotAt
    dsimp only
    rw [getD_set_self _ _ _ _ (lt_growChain_length _ _), node_data_getD,
      getD_set_self slots _ _ _ (by rw [hslots_len]; exact hspos_lt)]
    simp
  · intro b hb
    show slotAt _ _ _ = some b
    unfold slotAt
    dsimp only
    rw [getD_set_self _ _ _ _ (lt_growChain_length _ _), node_data_getD,
      getD_set_self slots _ _ _ (by rw [hslots_len]; exact hspos_lt)]
    rw [listWrite_id]
    rw [hbufferdef, hslots_fact, hb, bufferOf_some]

/-- C10: every read that returns 0 — end of store, or an absent node, slot
array or buffer — leaves the file position and the store size exactly as they
were, so a caller looping on read never advances across a hole. -/
theorem read_zero_frame (dev : ScullDev) (count pos : Nat) (ok : Bool)
    (h : (scull_read dev count pos ok).retval = 0) :
    (scull_read dev count pos ok).fpos = pos ∧
    (scull_read dev count pos ok).dev.size = dev.size := by
  refine ⟨?_, scull_read_size dev count pos ok⟩
  rw [scull_read_fpos_toNat, h]
  rfl

end Scull

namespace Scull

/-- C2: for every non-negative offset and quantum `Q` and node capacity `S`
(positive in particular), the triple computed by the addressing code satisfies
`node_index·Q·S + slot_index·Q + intra_offset = offset`. -/
theorem translate_reconstruct (offset Q S : Nat) :
    (translate offset Q S).1 * Q * S + (translate offset Q S).2.1 * Q +
      (translate offset Q S).2.2 = offset := by
  simp only [translate]
  have h1 : Q * S * (offset / (Q * S)) + offset % (Q * S) = offset :=
    Nat.div_add_mod offset (Q * S)
  have h2 : Q * (offset % (Q * S) / Q) + offset % (Q * S) % Q = offset % (Q * S) :=
    Nat.div_add_mod _ Q
  calc offset / (Q * S) * Q * S + offset % (Q * S) / Q * Q + offset % (Q * S) % Q
      = Q * S * (offset / (Q * S)) +
        (Q * (offset % (Q * S) / Q) + offset % (Q * S) % Q) := by ring
    _ = Q * S * (offset / (Q * S)) + offset % (Q * S) := by rw [h2]
    _ = offset := h1

/-- C5: on an empty store with Q=4, S=2 (itemsize 8), writing the 10 bytes
"ABCDEFGHIJ" from position 0 takes exactly three write calls returning 4, 4
and 2; the size is then 10 and a read loop from position 0 returns the 10
bytes exactly. -/
theorem concrete_scenario :
    (let w1 := scull_write (initDev 4 2) [65, 66, 67, 68, 69, 70, 71, 72, 73, 74] 0 true
     let w2 := scull_write w1.dev [69, 70, 71, 72, 73, 74] w1.fpos true
     let w3 := scull_write w2.dev [73, 74] w2.fpos true
     w1.retval = 4 ∧ w2.retval = 4 ∧ w3.retval = 2 ∧ w3.dev.size = 10 ∧ w3.fpos = 10 ∧
     (readLoop 10 w3.dev 10 0).1 = [65, 66, 67, 68, 69, 70, 71, 72, 73, 74]) := by
  decide

/-- C6: when the byte transfer to or from the caller-supplied buffer fails
(modelled by `userOk = false`; a zero-length transfer cannot fail), the call
returns the boundary-fault error `-EFAULT` and otherwise 0, a read delivers
no bytes and leaves position and size unchanged, and a faulting write leaves
position and size unchanged. -/
theorem boundary_fault_atomicity (dev : ScullDev) (count pos : Nat) (buf : List Nat) :
    ((scull_read dev count pos false).bytes = [] ∧
      ((scull_read dev count pos false).retval = 0 ∨
        (scull_read dev count pos false).retval = -EFAULT) ∧
      (scull_read dev count pos false).fpos = pos ∧
      (scull_read dev count pos false).dev.size = dev.size) ∧
    (((scull_write dev buf pos false).retval = 0 ∨
        (scull_write dev buf pos false).retval = -EFAULT) ∧
      ((scull_write dev buf pos false).retval = -EFAULT →
        (scull_write dev buf pos false).fpos = pos ∧
        (scull_write dev buf pos false).dev.size = dev.size)) :=
  ⟨read_fault_frame dev count pos, write_fault_frame dev buf pos⟩

/-- C8: `scull_trim` leaves the store with an empty chain, size 0 and the
configured default quantum/qset, and is idempotent. -/
theorem scull_trim_spec (Q0 S0 : Nat) (dev : ScullDev) :
    scull_trim Q0 S0 dev = initDev Q0 S0 ∧
    (scull_trim Q0 S0 dev).size = 0 ∧
    (scull_trim Q0 S0 dev).data = [] ∧
    (scull_trim Q0 S0 dev).quantum = Q0 ∧
    (scull_trim Q0 S0 dev).qset = S0 ∧
    scull_trim Q0 S0 (scull_trim Q0 S0 dev) = scull_trim Q0 S0 dev :=
  ⟨rfl, rfl, rfl, rfl, rfl, rfl⟩

/-- C3 counterexample: on a store state whose size field exceeds what the
chain covers, the `scull_follow` call inside `scull_read` allocates a node, so
the chain after the read differs from the chain before it. -/
theorem read_grows_chain_cex :
    ¬ ((scull_read ⟨1, 1, 5, []⟩ 1 0 true).dev.data = (⟨1, 1, 5, []⟩ : ScullDev).data) := by
  decide

/-- Witness for C3: from the empty reachable store, a read leaves the device
untouched. -/
theorem scull_read_preserves_dev_witness :
    0 < 4 ∧ 0 < 2 ∧ (scull_read (initDev 4 2) 3 0 true).dev = initDev 4 2 :=
  ⟨by decide, by decide,
    scull_read_preserves_dev 4 2 (initDev 4 2) 3 0 true (by decide) (by decide) Reach.init⟩

/-- C4 counterexample: write 8 bytes (two calls), trim, then write 1 byte at
the handle position 8 — the size becomes 9 while only 1 byte was transferred
since the trim. -/
theorem size_exceeds_written_cex :
    ¬ ((runOps 4 2 [Op.write [65, 65, 65, 65] 0 true, Op.write [65, 65, 65, 65] 4 true,
          Op.trim, Op.write [66] 8 true] (initDev 4 2, 0, 0)).1.size ≤
        (runOps 4 2 [Op.write [65, 65, 65, 65] 0 true, Op.write [65, 65, 65, 65] 4 true,
          Op.trim, Op.write [66] 8 true] (initDev 4 2, 0, 0)).2.1) := by
  decide

/-- C4 amended: along every operation sequence from the empty store, the size
never exceeds the greatest end position (write position plus bytes accepted)
reached by a successful write since the last trim. -/
theorem size_le_max_write_end (Q0 S0 : Nat) (ops : List Op) :
    (runOps Q0 S0 ops (initDev Q0 S0, 0, 0)).1.size ≤
      (runOps Q0 S0 ops (initDev Q0 S0, 0, 0)).2.2 :=
  runOps_size_le Q0 S0 ops (initDev Q0 S0, 0, 0) (Nat.le_refl 0)

/-- Witness for C1 at Q=3, S=2 with 7 bytes spanning three quanta and two
chain nodes. -/
theorem scull_roundTrip_witness :
    0 < 3 ∧ 0 < 2 ∧
      ((writeLoop 7 (initDev 3 2) [10, 20, 30, 40, 50, 60, 70] 0).2 = 7 ∧
       (readLoop 7 (writeLoop 7 (initDev 3 2) [10, 20, 30, 40, 50, 60, 70] 0).1 7 0).1
         = [10, 20, 30, 40, 50, 60, 70] ∧
       (readLoop 7 (writeLoop 7 (initDev 3 2) [10, 20, 30, 40, 50, 60, 70] 0).1 7 0).2.2
         = 7) :=
  ⟨by decide, by decide,
    scull_roundTrip 3 2 [10, 20, 30, 40, 50, 60, 70] (by decide) (by decide)⟩

/-- Witness for C7: after writing one byte at offset 8 (Q=4, S=2) the size is
9, offset 0 is a hole (node 0 has no slot array), and reading there returns 0
bytes without error. -/
theorem hole_read_zero_witness :
    (0 < (scull_write (initDev 4 2) [66] 8 true).dev.size ∧
     slotAt (scull_write (initDev 4 2) [66] 8 true).dev 0 0 = none) ∧
    ((scull_read (scull_write (initDev 4 2) [66] 8 true).dev 3 0 true).retval = 0 ∧
     (scull_read (scull_write (initDev 4 2) [66] 8 true).dev 3 0 true).bytes = []) :=
  ⟨⟨by decide, by decide⟩,
    hole_read_zero (scull_write (initDev 4 2) [66] 8 true).dev 3 0 true (by decide)
      (by decide)⟩

/-- Witness for C9: a zero-length write at position 5 on the empty well-formed
store returns 0, raises the size to 5 and allocates node 0, its slot array and
the buffer in slot 1. -/
theorem zero_write_spec_witness :
    WF (initDev 4 2) = true ∧
    ((scull_write (initDev 4 2) [] 5 true).retval = 0 ∧
     (scull_write (initDev 4 2) [] 5 true).fpos = 5 ∧
     (scull_write (initDev 4 2) [] 5 true).dev.size = max (initDev 4 2).size 5 ∧
     slotAt (scull_write (initDev 4 2) [] 5 true).dev 0 1 ≠ none ∧
     (∀ b, slotAt (initDev 4 2) 0 1 = some b →
       slotAt (scull_write (initDev 4 2) [] 5 true).dev 0 1 = some b)) :=
  ⟨by decide, zero_write_spec (initDev 4 2) 5 (by decide)⟩

/-- Witness for C10: a read at end of store returns 0 and leaves position and
size alone. -/
theorem read_zero_frame_witness :
    (scull_read (initDev 4 2) 5 0 true).retval = 0 ∧
    ((scull_read (initDev 4 2) 5 0 true).fpos = 0 ∧
     (scull_read (initDev 4 2) 5 0 true).dev.size = (initDev 4 2).size) :=
  ⟨by decide, read_zero_frame (initDev 4 2) 5 0 true (by decide)⟩

end Scull
